import Mathlib

/-!
Verification of the retrieval-context-assembly core (token estimator,
document chunker, relevance scorer, context assembler) of the TestAI
service, shallowly embedded from `src/utils/tokenEstimator.js` and
`src/utils/chunking.js`.  JavaScript strings are modelled as `List Char`,
JavaScript numbers arising here (all non-negative integers) as `Nat`.
-/

set_option maxRecDepth 4000

/-- JavaScript strings, modelled as lists of characters. -/
abbrev Str := List Char

/-! ## Token estimator (`src/utils/tokenEstimator.js`) -/

/-- `estimateTokens(text)`: `Math.ceil(text.length / 3.5)` (and `0` for the
empty string, matching the `if (!text) return 0` guard).  In `Nat`
arithmetic `ceil (L / 3.5) = ceil (2L / 7) = (2L + 6) / 7`. -/
def estimateTokens (text : Str) : Nat :=
  (2 * text.length + 6) / 7

def MODEL_CONTEXT_LIMIT : Nat := 16384
def SAFE_CONTEXT_LIMIT : Nat := 14000
def SYSTEM_PROMPT_TOKENS : Nat := 500
def USER_MESSAGE_TOKENS : Nat := 200
def RESPONSE_TOKENS : Nat := 1000

/-- `calculateAvailableContextTokens()`. -/
def calculateAvailableContextTokens : Nat :=
  SAFE_CONTEXT_LIMIT - SYSTEM_PROMPT_TOKENS - USER_MESSAGE_TOKENS - RESPONSE_TOKENS

/-- The marker appended by `truncateToTokenLimit`. -/
def truncationMarker : Str := "\n\n[Content truncated to fit token limit]".toList

/-- `truncateToTokenLimit(text, maxTokens)`: unchanged when it fits,
otherwise the first `Math.floor(maxTokens * 3.5)` (`= 7 * maxTokens / 2`)
characters followed by the truncation marker. -/
def truncateToTokenLimit (text : Str) (maxTokens : Nat) : Str :=
  if estimateTokens text ≤ maxTokens then text
  else text.take (7 * maxTokens / 2) ++ truncationMarker

/-! ## Document chunker (`src/utils/chunking.js`, `chunkText`) -/

/-- Whitespace for JavaScript `String.prototype.trim`. -/
def isWS (c : Char) : Bool :=
  c = ' ' || c = '\t' || c = '\n' || c = '\r' || c = '\x0b' || c = '\x0c' ||
  c = '\u00A0' || c = '\uFEFF'

/-- JavaScript `String.prototype.trim`: drop whitespace from both ends. -/
def trimStr (s : Str) : Str :=
  ((s.dropWhile isWS).reverse.dropWhile isWS).reverse

/-- One step (processing one character, right to left) of
`text.split(/\n\n+/)`.  The state is `(run, cur, segs)`: `run` counts the
newlines seen immediately to the left of the already-processed suffix,
`cur` is the segment being built, `segs` the completed segments. -/
def splitStep (c : Char) (st : Nat × Str × List Str) : Nat × Str × List Str :=
  if c = '\n' then (st.1 + 1, st.2.1, st.2.2)
  else if 2 ≤ st.1 then (0, [c], st.2.1 :: st.2.2)
  else (0, c :: (List.replicate st.1 '\n' ++ st.2.1), st.2.2)

/-- `text.split(/\n\n+/)`: split on maximal runs of two or more newlines
(a lone newline stays inside its segment; leading/trailing separators
produce empty segments, as for the JavaScript `split`). -/
def splitParas (text : Str) : List Str :=
  let st := text.foldr splitStep (0, [], [])
  if 2 ≤ st.1 then [] :: st.2.1 :: st.2.2
  else (List.replicate st.1 '\n' ++ st.2.1) :: st.2.2

/-- A chunk produced by `chunkText` (content plus position tracking). -/
structure Chunk where
  content : Str
  startChar : Nat
  endChar : Nat
  preview : Str
deriving DecidableEq, Repr

/-- `currentChunk.trim().substring(0, 80) + '...'`. -/
def mkPreview (s : Str) : Str := s.take 80 ++ "...".toList

/-- The paragraph loop of `chunkText`, over the paragraph list with state
`(currentChunk, chunkStartPosition, currentPosition)`. -/
def chunkTextLoop (maxChunkSize : Nat) :
    List Str → Str → Nat → Nat → List Chunk
  | [], currentChunk, chunkStartPosition, currentPosition =>
      if trimStr currentChunk ≠ [] then
        [⟨trimStr currentChunk, chunkStartPosition, currentPosition,
          mkPreview (trimStr currentChunk)⟩]
      else []
  | p :: ps, currentChunk, chunkStartPosition, currentPosition =>
      let trimmedParagraph := trimStr p
      if trimmedParagraph = [] then
        chunkTextLoop maxChunkSize ps currentChunk chunkStartPosition
          (currentPosition + p.length + 2)
      else if currentChunk.length + trimmedParagraph.length > maxChunkSize ∧
          0 < currentChunk.length then
        ⟨trimStr currentChunk, chunkStartPosition, currentPosition,
          mkPreview (trimStr currentChunk)⟩ ::
          chunkTextLoop maxChunkSize ps trimmedParagraph currentPosition
            (currentPosition + p.length + 2)
      else
        chunkTextLoop maxChunkSize ps
          (currentChunk ++
            (if currentChunk.length ≠ 0 then '\n' :: '\n' :: trimmedParagraph
             else trimmedParagraph))
          chunkStartPosition (currentPosition + p.length + 2)

/-- `chunkText(text, maxChunkSize)`. -/
def chunkText (text : Str) (maxChunkSize : Nat := 600) : List Chunk :=
  chunkTextLoop maxChunkSize (splitParas text) [] 0 0

/-- The trimmed, non-empty paragraphs of a paragraph list, in order. -/
def netParas (paras : List Str) : List Str :=
  (paras.map trimStr).filter (fun s => !s.isEmpty)

/-- Join a list of strings with the paragraph separator `"\n\n"`. -/
def joinSep : List Str → Str
  | [] => []
  | [s] => s
  | s :: t :: rest => s ++ '\n' :: '\n' :: joinSep (t :: rest)

/-! ## Relevance scorer (`src/utils/chunking.js`, `scoreChunkRelevance`) -/

/-- `toLowerCase()` (character-wise, as for the ASCII range). -/
def toLowerStr (s : Str) : Str := s.map Char.toLower

/-- JavaScript `\w`: `[A-Za-z0-9_]`. -/
def isWordChar (c : Char) : Bool := c.isAlpha || c.isDigit || c = '_'

/-- One step (right to left) of `split(/\W+/)`.  State `(inSep, cur, segs)`:
`inSep` records whether the character to the right was a separator. -/
def wordStep (c : Char) (st : Bool × Str × List Str) : Bool × Str × List Str :=
  if isWordChar c then (false, c :: st.2.1, st.2.2)
  else if st.1 then st
  else (true, [], st.2.1 :: st.2.2)

/-- `s.split(/\W+/)`: split on maximal runs of non-word characters (with
empty leading/trailing segments, as for the JavaScript `split`). -/
def wordSplit (s : Str) : List Str :=
  let st := s.foldr wordStep (false, [], [])
  st.2.1 :: st.2.2

/-- The stop-word set of `scoreChunkRelevance`. -/
def stopWords : List Str :=
  (["the", "a", "an", "and", "or", "but", "in", "on", "at", "to", "for",
    "of", "with", "is", "are", "was", "were", "what", "how", "why", "when",
    "where", "who", "which", "can", "could", "should", "would", "do", "does",
    "did", "have", "has", "had", "my", "i", "me", "you", "about", "tell",
    "explain"]).map String.toList

/-- The query keywords: tokens of the lower-cased query split on non-word
characters, keeping tokens of length `> 2` outside the stop-word set. -/
def queryWords (query : Str) : List Str :=
  (wordSplit (toLowerStr query)).filter
    (fun word => decide (2 < word.length) && !(stopWords.contains word))

/-- Scanner behind `chunkLower.match(new RegExp(word, 'gi')).length`:
count of non-overlapping, leftmost occurrences.  The extra `Nat` argument
is the number of characters still to skip after a match (a match at
position `p` resumes the scan at `p + pat.length`). -/
def countOccsAux (pat : Str) : Str → Nat → Nat
  | [], _ => 0
  | _ :: rest, k + 1 => countOccsAux pat rest k
  | x :: rest, 0 =>
      if pat.isPrefixOf (x :: rest) then
        1 + countOccsAux pat rest (pat.length - 1)
      else countOccsAux pat rest 0

/-- Number of matches of the literal pattern `pat` in `s`
(`match` with the `g` flag; `null` ↦ `0`). -/
def countOccs (pat s : Str) : Nat :=
  if pat.isEmpty then 0 else countOccsAux pat s 0

/-- `String.prototype.includes`. -/
def isSubstrOf (pat : Str) : Str → Bool
  | [] => pat.isPrefixOf []
  | x :: rest => pat.isPrefixOf (x :: rest) || isSubstrOf pat rest

/-- The body of the keyword loop of `scoreChunkRelevance`: each occurrence
scores 10 points, plus a 5-point bonus when the keyword appears in the
first 200 characters. -/
def keywordPoints (chunkLower word : Str) : Nat :=
  countOccs word chunkLower * 10 +
    (if isSubstrOf word (chunkLower.take 200) then 5 else 0)

/-- `scoreChunkRelevance(chunk, query)`. -/
def scoreChunkRelevance (chunk query : Str) : Nat :=
  (queryWords query).foldl
    (fun score word => score + keywordPoints (toLowerStr chunk) word) 0

/-! ## Context assembler (`src/utils/chunking.js`, `getRelevantContext`).
The document store (the knowledge-base directory) is passed explicitly as
the list of `(filename, file content)` pairs, in `readdirSync` order. -/

/-- A candidate chunk with score and provenance (`allChunks` entries). -/
structure ScoredChunk where
  content : Str
  score : Nat
  filename : Str
  tokens : Nat
  startChar : Nat
  endChar : Nat
  chunkIndex : Nat
  totalChunks : Nat
  preview : Str
deriving DecidableEq, Repr

/-- An entry of the returned `sources` array. -/
structure SourceRef where
  filename : Str
  chunkIndex : Nat
  totalChunks : Nat
  startChar : Nat
  endChar : Nat
  preview : Str
deriving DecidableEq, Repr

def toSourceRef (c : ScoredChunk) : SourceRef :=
  ⟨c.filename, c.chunkIndex, c.totalChunks, c.startChar, c.endChar, c.preview⟩

/-- `getRelevantContext`'s result.  The empty-store early return builds an
object literal without a `sources` key; this absent field is modelled as
`none`, while the normal path yields `some` of the array. -/
structure ContextResult where
  context : Str
  tokenCount : Nat
  chunksUsed : Nat
  sources : Option (List SourceRef)
deriving DecidableEq, Repr

/-- The per-file scoring loop (`for (let idx = 0; ...)`): keep chunks with
score `> 0`, tagging 1-based index, total count and estimated tokens. -/
def scoreChunksAux (query filename : Str) (total : Nat) :
    List Chunk → Nat → List ScoredChunk
  | [], _ => []
  | ch :: rest, idx =>
      let score := scoreChunkRelevance ch.content query
      if 0 < score then
        ⟨ch.content, score, filename, estimateTokens ch.content,
          ch.startChar, ch.endChar, idx + 1, total, ch.preview⟩ ::
          scoreChunksAux query filename total rest (idx + 1)
      else scoreChunksAux query filename total rest (idx + 1)

/-- Chunk one file and keep its positively scored chunks. -/
def scoreFileChunks (query : Str) (maxChunkSize : Nat) (file : Str × Str) :
    List ScoredChunk :=
  let chunks := chunkText file.2 maxChunkSize
  scoreChunksAux query file.1 chunks.length chunks 0

/-- The `allChunks` pool: all files processed in order. -/
def collectChunks (store : List (Str × Str)) (query : Str)
    (maxChunkSize : Nat) : List ScoredChunk :=
  store.foldr (fun file acc => scoreFileChunks query maxChunkSize file ++ acc) []

/-- Insertion step of the stable descending sort by score. -/
def insertDesc (c : ScoredChunk) : List ScoredChunk → List ScoredChunk
  | [] => [c]
  | d :: rest =>
      if c.score < d.score then d :: insertDesc c rest else c :: d :: rest

/-- `allChunks.sort((a, b) => b.score - a.score)`: a stable sort by
descending score (`Array.prototype.sort` is stable, so any stable sorting
algorithm yields the same list). -/
def sortByScoreDesc : List ScoredChunk → List ScoredChunk
  | [] => []
  | c :: rest => insertDesc c (sortByScoreDesc rest)

/-- The fixed context header string. -/
def contextHeader : Str :=
  "\n\n=== RELEVANT THERAPEUTIC RESOURCES & PROTOCOLS ===\n".toList

def natToStr (n : Nat) : Str := (Nat.repr n).toList

/-- The per-chunk inline header
`` `\n--- Excerpt ${i + 1} from ${chunk.filename} (Relevance: ${chunk.score}) ---\n` ``. -/
def chunkHeaderStr (i : Nat) (c : ScoredChunk) : Str :=
  "\n--- Excerpt ".toList ++ natToStr (i + 1) ++ " from ".toList ++
    c.filename ++ " (Relevance: ".toList ++ natToStr c.score ++
    ") ---\n".toList

/-- Tokens added by selecting candidate `c` at loop index `i`:
`chunk.tokens + estimateTokens(chunkHeader)`. -/
def selCost (i : Nat) (c : ScoredChunk) : Nat :=
  c.tokens + estimateTokens (chunkHeaderStr i c)

/-- Total tokens added by a run of consecutive selections starting at loop
index `i`. -/
def totalCost : Nat → List ScoredChunk → Nat
  | _, [] => 0
  | i, c :: rest => selCost i c + totalCost (i + 1) rest

/-- The selection loop over (at most) the first `topK` candidates:
stop at the first candidate whose addition would exceed the budget.
Returns the context string, the running token total and the selected
chunks. -/
def selectLoop (availableTokens : Nat) :
    List ScoredChunk → Nat → Str → Nat → Str × Nat × List ScoredChunk
  | [], _, context, totalTokens => (context, totalTokens, [])
  | c :: rest, i, context, totalTokens =>
      if availableTokens < totalTokens + selCost i c then
        (context, totalTokens, [])
      else
        let r := selectLoop availableTokens rest (i + 1)
          (context ++ chunkHeaderStr i c ++ c.content ++ ['\n'])
          (totalTokens + selCost i c)
        (r.1, r.2.1, c :: r.2.2)

/-- The score-sorted candidate pool. -/
def sortedPool (store : List (Str × Str)) (query : Str)
    (maxChunkSize : Nat) : List ScoredChunk :=
  sortByScoreDesc (collectChunks store query maxChunkSize)

/-- The chunks selected by `getRelevantContext`. -/
def selectedChunks (store : List (Str × Str)) (query : Str)
    (topK maxChunkSize : Nat) : List ScoredChunk :=
  (selectLoop calculateAvailableContextTokens
    ((sortedPool store query maxChunkSize).take topK) 0 contextHeader
    (estimateTokens contextHeader)).2.2

/-- `getRelevantContext(query, topK, maxChunkSize)` over an explicit
document store. -/
def getRelevantContext (store : List (Str × Str)) (query : Str)
    (topK : Nat := 3) (maxChunkSize : Nat := 600) : ContextResult :=
  if store.length = 0 then ⟨[], 0, 0, none⟩
  else
    let allChunks := sortedPool store query maxChunkSize
    let availableTokens := calculateAvailableContextTokens
    let r := selectLoop availableTokens (allChunks.take topK) 0 contextHeader
      (estimateTokens contextHeader)
    if availableTokens < r.2.1 then
      ⟨truncateToTokenLimit r.1 availableTokens, availableTokens,
        r.2.2.length, some (r.2.2.map toSourceRef)⟩
    else ⟨r.1, r.2.1, r.2.2.length, some (r.2.2.map toSourceRef)⟩

/-! ## Lemmas about `trimStr` -/

theorem head_not_ws_of_dropWhile_eq {x : Char} {xs : Str}
    (h : (x :: xs).dropWhile isWS = x :: xs) : isWS x = false := by
  cases hx : isWS x with
  | false => rfl
  | true =>
      exfalso
      rw [List.dropWhile_cons, hx] at h
      have hle := (List.dropWhile_suffix (l := xs) isWS).length_le
      have := congrArg List.length h
      simp at this
      omega

theorem head?_dropWhile_not (p : Char → Bool) (l : Str) :
    ∀ a, (l.dropWhile p).head? = some a → p a = false := by
  induction l with
  | nil => intro a h; simp [List.dropWhile] at h
  | cons x xs ih =>
      intro a h
      rw [List.dropWhile_cons] at h
      cases hx : p x with
      | true => rw [hx] at h; simp at h; exact ih a h
      | false => rw [hx] at h; simp at h; exact h ▸ hx

theorem getLast?_dropWhile (p : Char → Bool) (l : Str)
    (h : l.dropWhile p ≠ []) : (l.dropWhile p).getLast? = l.getLast? := by
  obtain ⟨u, hu⟩ := List.dropWhile_suffix (l := l) (p := p)
  conv_rhs => rw [← hu]
  exact (List.getLast?_append_of_ne_nil u h).symm

theorem dropWhile_eq_self_of_head (p : Char → Bool) (l : Str)
    (h : ∀ a, l.head? = some a → p a = false) : l.dropWhile p = l := by
  cases l with
  | nil => rfl
  | cons x xs => rw [List.dropWhile_cons, h x rfl]; simp

theorem trimStr_length_le (s : Str) : (trimStr s).length ≤ s.length := by
  unfold trimStr
  rw [List.length_reverse]
  calc ((s.dropWhile isWS).reverse.dropWhile isWS).length
      ≤ (s.dropWhile isWS).reverse.length :=
        (List.dropWhile_suffix isWS).length_le
    _ = (s.dropWhile isWS).length := List.length_reverse _
    _ ≤ s.length := (List.dropWhile_suffix isWS).length_le

theorem trim_eq_self_parts {s : Str} (h : trimStr s = s) :
    s.dropWhile isWS = s ∧ s.reverse.dropWhile isWS = s.reverse := by
  have h1 : s.dropWhile isWS = s := by
    have hlen : (trimStr s).length ≤ (s.dropWhile isWS).length := by
      unfold trimStr
      rw [List.length_reverse]
      calc ((s.dropWhile isWS).reverse.dropWhile isWS).length
          ≤ (s.dropWhile isWS).reverse.length :=
            (List.dropWhile_suffix isWS).length_le
        _ = (s.dropWhile isWS).length := List.length_reverse _
    have hle := (List.dropWhile_suffix (l := s) isWS).length_le
    rw [h] at hlen
    have hlen' : (s.dropWhile isWS).length = s.length := le_antisymm hle hlen
    exact (List.dropWhile_suffix isWS).eq_of_length hlen'
  refine ⟨h1, ?_⟩
  have h2 : ((s.reverse.dropWhile isWS)).reverse = s := by
    conv_rhs => rw [← h]
    unfold trimStr
    rw [h1]
  have := congrArg List.reverse h2
  rwa [List.reverse_reverse] at this

theorem parts_trim_eq_self {s : Str} (h1 : s.dropWhile isWS = s)
    (h2 : s.reverse.dropWhile isWS = s.reverse) : trimStr s = s := by
  unfold trimStr
  rw [h1, h2, List.reverse_reverse]

theorem trimStr_idem (s : Str) : trimStr (trimStr s) = trimStr s := by
  apply parts_trim_eq_self
  · apply dropWhile_eq_self_of_head
    intro a ha
    unfold trimStr at ha
    rw [List.head?_reverse] at ha
    have hne : (s.dropWhile isWS).reverse.dropWhile isWS ≠ [] := by
      intro h0
      rw [h0] at ha
      simp at ha
    rw [getLast?_dropWhile isWS _ hne, List.getLast?_reverse] at ha
    exact head?_dropWhile_not isWS s a ha
  · apply dropWhile_eq_self_of_head
    intro a ha
    unfold trimStr at ha
    rw [List.reverse_reverse] at ha
    exact head?_dropWhile_not isWS _ a ha

theorem head_not_ws_of_trim {x : Char} {xs : Str}
    (h : trimStr (x :: xs) = x :: xs) : isWS x = false :=
  head_not_ws_of_dropWhile_eq (trim_eq_self_parts h).1

theorem trim_append {a b : Str} (ha : trimStr a = a) (hna : a ≠ [])
    (hb : trimStr b = b) (hnb : b ≠ []) :
    trimStr (a ++ '\n' :: '\n' :: b) = a ++ '\n' :: '\n' :: b := by
  apply parts_trim_eq_self
  · obtain ⟨x, a', rfl⟩ : ∃ x a', a = x :: a' := by
      cases a with
      | nil => exact absurd rfl hna
      | cons x a' => exact ⟨x, a', rfl⟩
    rw [List.cons_append, List.dropWhile_cons, head_not_ws_of_trim ha]
    simp
  · rcases hrb : b.reverse with _ | ⟨y, t⟩
    · exact absurd (by simpa using congrArg List.reverse hrb) hnb
    · have hy : isWS y = false := by
        have := (trim_eq_self_parts hb).2
        rw [hrb] at this
        exact head_not_ws_of_dropWhile_eq this
      rw [List.reverse_append]
      simp only [List.reverse_cons, List.reverse_nil]
      rw [hrb]
      simp only [List.cons_append]
      rw [List.dropWhile_cons, hy]
      simp

/-! ## Structure of `chunkText`'s output -/

theorem joinSep_cons_of_ne (s : Str) {L : List Str} (h : L ≠ []) :
    joinSep (s :: L) = s ++ '\n' :: '\n' :: joinSep L := by
  cases L with
  | nil => exact absurd rfl h
  | cons t rest => rfl

theorem joinSep_glue (a b : Str) (L : List Str) :
    joinSep ((a ++ '\n' :: '\n' :: b) :: L) = joinSep (a :: b :: L) := by
  cases L with
  | nil => rfl
  | cons x L' =>
      show (a ++ '\n' :: '\n' :: b) ++ '\n' :: '\n' :: joinSep (x :: L')
          = a ++ '\n' :: '\n' :: (b ++ '\n' :: '\n' :: joinSep (x :: L'))
      simp [List.append_assoc]

theorem chunkTextLoop_nil (max : Nat) (cur : Str) (cs cp : Nat) :
    chunkTextLoop max [] cur cs cp =
      if trimStr cur ≠ [] then
        [⟨trimStr cur, cs, cp, mkPreview (trimStr cur)⟩]
      else [] := rfl

theorem chunkTextLoop_cons_skip {p : Str} (ht : trimStr p = []) (max : Nat)
    (ps : List Str) (cur : Str) (cs cp : Nat) :
    chunkTextLoop max (p :: ps) cur cs cp =
      chunkTextLoop max ps cur cs (cp + p.length + 2) := by
  simp [chunkTextLoop, ht]

theorem chunkTextLoop_cons_flush {p : Str} {max : Nat} {cur : Str}
    (ht : trimStr p ≠ [])
    (hc : cur.length + (trimStr p).length > max ∧ 0 < cur.length)
    (ps : List Str) (cs cp : Nat) :
    chunkTextLoop max (p :: ps) cur cs cp =
      ⟨trimStr cur, cs, cp, mkPreview (trimStr cur)⟩ ::
        chunkTextLoop max ps (trimStr p) cp (cp + p.length + 2) := by
  simp [chunkTextLoop, ht, hc]

theorem chunkTextLoop_cons_app {p : Str} {max : Nat} {cur : Str}
    (ht : trimStr p ≠ [])
    (hc : ¬(cur.length + (trimStr p).length > max ∧ 0 < cur.length))
    (ps : List Str) (cs cp : Nat) :
    chunkTextLoop max (p :: ps) cur cs cp =
      chunkTextLoop max ps
        (cur ++ (if cur.length ≠ 0 then '\n' :: '\n' :: trimStr p
                 else trimStr p))
        cs (cp + p.length + 2) := by
  simp [chunkTextLoop, ht, hc]

theorem chunkTextLoop_ne_nil (max : Nat) :
    ∀ (paras : List Str) (cur : Str) (cs cp : Nat), cur ≠ [] →
      trimStr cur = cur → chunkTextLoop max paras cur cs cp ≠ [] := by
  intro paras
  induction paras with
  | nil =>
      intro cur cs cp h1 h2
      rw [chunkTextLoop_nil, h2, if_pos h1]
      exact List.cons_ne_nil _ _
  | cons p ps ih =>
      intro cur cs cp h1 h2
      by_cases ht : trimStr p = []
      · rw [chunkTextLoop_cons_skip ht]
        exact ih cur cs _ h1 h2
      · by_cases hc : cur.length + (trimStr p).length > max ∧ 0 < cur.length
        · rw [chunkTextLoop_cons_flush ht hc]
          exact List.cons_ne_nil _ _
        · rw [chunkTextLoop_cons_app ht hc]
          have hcl : cur.length ≠ 0 := fun h0 => h1 (List.length_eq_zero.mp h0)
          rw [if_pos hcl]
          exact ih _ cs _ (by simp) (trim_append h2 h1 (trimStr_idem p) ht)

theorem chunkTextLoop_join (max : Nat) :
    ∀ (paras : List Str), ∀ (cur : Str) (cs cp : Nat), trimStr cur = cur →
      joinSep ((chunkTextLoop max paras cur cs cp).map Chunk.content)
        = joinSep (if cur = [] then netParas paras
                   else cur :: netParas paras) := by
  intro paras
  induction paras with
  | nil =>
      intro cur cs cp h
      rw [chunkTextLoop_nil, h]
      by_cases hcur : cur = []
      · subst hcur
        simp [netParas, joinSep]
      · rw [if_pos hcur, if_neg hcur]
        simp [netParas, joinSep]
  | cons p ps ih =>
      intro cur cs cp h
      by_cases ht : trimStr p = []
      · rw [chunkTextLoop_cons_skip ht, ih cur cs _ h]
        have hnet : netParas (p :: ps) = netParas ps := by
          simp [netParas, List.filter_cons, ht]
        rw [hnet]
      · have htE : (trimStr p).isEmpty = false := by
          cases htp : trimStr p with
          | nil => exact absurd htp ht
          | cons y t => rfl
        have hnet : netParas (p :: ps) = trimStr p :: netParas ps := by
          simp [netParas, List.filter_cons, htE]
        by_cases hc : cur.length + (trimStr p).length > max ∧ 0 < cur.length
        · have hcur : cur ≠ [] := by
            intro h0
            rw [h0] at hc
            simp at hc
          rw [chunkTextLoop_cons_flush ht hc, List.map_cons]
          have hLne : chunkTextLoop max ps (trimStr p) cp
              (cp + p.length + 2) ≠ [] :=
            chunkTextLoop_ne_nil max ps (trimStr p) cp _ ht (trimStr_idem p)
          have hmapne :
              (chunkTextLoop max ps (trimStr p) cp
                (cp + p.length + 2)).map Chunk.content ≠ [] := by
            simpa using hLne
          show joinSep (trimStr cur :: _) = _
          rw [h, joinSep_cons_of_ne _ hmapne]
          rw [ih (trimStr p) cp _ (trimStr_idem p), if_neg ht]
          rw [if_neg hcur, hnet, joinSep_cons_of_ne cur (by simp [ht])]
        · by_cases hcur : cur = []
          · subst hcur
            rw [chunkTextLoop_cons_app ht hc]
            rw [if_neg (by simp : ¬ (List.length ([] : Str) ≠ 0))]
            rw [List.nil_append]
            rw [ih (trimStr p) cs _ (trimStr_idem p), if_neg ht]
            rw [if_pos rfl, hnet]
          · have hcl : cur.length ≠ 0 :=
              fun h0 => hcur (List.length_eq_zero.mp h0)
            rw [chunkTextLoop_cons_app ht hc, if_pos hcl]
            have hcur' : cur ++ '\n' :: '\n' :: trimStr p ≠ [] := by simp
            rw [ih _ cs _ (trim_append h hcur (trimStr_idem p) ht),
              if_neg hcur']
            rw [joinSep_glue, if_neg hcur, hnet]

/-- C7: concatenating the contents of `chunkText`'s output, rejoined with
the paragraph separator, reproduces exactly the trimmed non-empty
paragraphs of the input, rejoined with the separator, in order — no
paragraph is dropped and none is duplicated. -/
theorem chunk_coverage (text : Str) (maxChunkSize : Nat) :
    joinSep ((chunkText text maxChunkSize).map Chunk.content)
      = joinSep (((splitParas text).map trimStr).filter
          (fun s => !s.isEmpty)) := by
  have h := chunkTextLoop_join maxChunkSize (splitParas text) [] 0 0 rfl
  rw [if_pos rfl] at h
  exact h

theorem chunkTextLoop_size (max : Nat) (Q : Str → Prop) :
    ∀ (paras : List Str), (∀ p ∈ paras, Q (trimStr p)) →
      ∀ (cur : Str) (cs cp : Nat), trimStr cur = cur →
        (cur = [] ∨ Q cur ∨ cur.length ≤ max + 2) →
        ∀ c ∈ chunkTextLoop max paras cur cs cp,
          c.content.length ≤ max + 2 ∨ Q c.content := by
  intro paras
  induction paras with
  | nil =>
      intro _ cur cs cp h hinv c hc
      rw [chunkTextLoop_nil, h] at hc
      by_cases hcur : cur = []
      · rw [if_neg (by simpa using hcur)] at hc
        exact absurd hc (List.not_mem_nil c)
      · rw [if_pos hcur] at hc
        rcases List.mem_cons.mp hc with hc | hc
        · subst hc
          rcases hinv with h0 | hQ | hlen
          · exact absurd h0 hcur
          · exact Or.inr hQ
          · exact Or.inl hlen
        · exact absurd hc (List.not_mem_nil c)
  | cons p ps ih =>
      intro hQs cur cs cp h hinv c hc
      have hQp : Q (trimStr p) := hQs p (List.mem_cons_self p ps)
      have hQs' : ∀ q ∈ ps, Q (trimStr q) :=
        fun q hq => hQs q (List.mem_cons_of_mem p hq)
      by_cases ht : trimStr p = []
      · rw [chunkTextLoop_cons_skip ht] at hc
        exact ih hQs' cur cs _ h hinv c hc
      · by_cases hcc : cur.length + (trimStr p).length > max ∧ 0 < cur.length
        · rw [chunkTextLoop_cons_flush ht hcc] at hc
          rcases List.mem_cons.mp hc with hc | hc
          · subst hc
            rw [h]
            rcases hinv with h0 | hQ | hlen
            · rw [h0] at hcc
              simp at hcc
            · exact Or.inr hQ
            · exact Or.inl hlen
          · exact ih hQs' (trimStr p) cp _ (trimStr_idem p)
              (Or.inr (Or.inl hQp)) c hc
        · by_cases hcur : cur = []
          · subst hcur
            rw [chunkTextLoop_cons_app ht hcc,
              if_neg (by simp : ¬ (List.length ([] : Str) ≠ 0)),
              List.nil_append] at hc
            exact ih hQs' (trimStr p) cs _ (trimStr_idem p)
              (Or.inr (Or.inl hQp)) c hc
          · have hcl : cur.length ≠ 0 :=
              fun h0 => hcur (List.length_eq_zero.mp h0)
            rw [chunkTextLoop_cons_app ht hcc, if_pos hcl] at hc
            have hfit : cur.length + (trimStr p).length ≤ max := by
              rcases not_and_or.mp hcc with hb | hb
              · omega
              · exact absurd (List.length_pos.mpr hcur) hb
            have hlen' : (cur ++ '\n' :: '\n' :: trimStr p).length ≤ max + 2 := by
              rw [List.length_append]
              simp only [List.length_cons]
              omega
            exact ih hQs' _ cs _ (trim_append h hcur (trimStr_idem p) ht)
              (Or.inr (Or.inr hlen')) c hc

/-- C3 (amended): every chunk produced by `chunkText` has content length at
most `maxChunkSize + 2`, unless its content is a single trimmed paragraph
of the input (which is never split, however long).  The `+ 2` slack exists
because the size check `currentChunk.length + trimmedParagraph.length >
maxChunkSize` does not count the two-character `"\n\n"` joiner that the
append then inserts. -/
theorem chunk_size_bound (text : Str) (maxChunkSize : Nat) :
    ∀ c ∈ chunkText text maxChunkSize,
      c.content.length ≤ maxChunkSize + 2 ∨
        c.content ∈ (splitParas text).map trimStr := by
  intro c hc
  exact chunkTextLoop_size maxChunkSize
    (fun s => s ∈ (splitParas text).map trimStr) (splitParas text)
    (fun p hp => List.mem_map_of_mem trimStr hp) [] 0 0 rfl (Or.inl rfl) c hc

/-- C3 (counterexample): with `maxChunkSize = 10` and two trimmed
paragraphs of length 5 each (each fits alone), `chunkText` assembles them
into a single chunk of length 12 > 10: the separator is not counted by the
size check, so a chunk built from several individually fitting paragraphs
can exceed the bound. -/
theorem chunk_size_bound_cex :
    (chunkText "aaaaa\n\nbbbbb".toList 10).map
        (fun c => c.content.length) = [12] ∧
      (splitParas "aaaaa\n\nbbbbb".toList).map
        (fun p => (trimStr p).length) = [5, 5] ∧
      ¬ (12 ≤ 10) := by
  refine ⟨by decide, by decide, by decide⟩

/-- C3 witness: the amended bound at the concrete input above. -/
theorem chunk_size_bound_witness :
    (⟨"aaaaa\n\nbbbbb".toList, 0, 14,
        mkPreview "aaaaa\n\nbbbbb".toList⟩ : Chunk).content.length ≤ 10 + 2 ∨
      (⟨"aaaaa\n\nbbbbb".toList, 0, 14,
        mkPreview "aaaaa\n\nbbbbb".toList⟩ : Chunk).content ∈
        (splitParas "aaaaa\n\nbbbbb".toList).map trimStr :=
  chunk_size_bound "aaaaa\n\nbbbbb".toList 10 _ (by decide)

/-! ## C1, C2, C10 -/

/-- C1: for every document store, query, `topK` and `maxChunkSize`, the
`tokenCount` of the `ContextResult` returned by `getRelevantContext` is at
most `calculateAvailableContextTokens()`, which is
`14000 - 500 - 200 - 1000 = 12300` for the configured constants. -/
theorem budget_respect (store : List (Str × Str)) (query : Str)
    (topK maxChunkSize : Nat) :
    (getRelevantContext store query topK maxChunkSize).tokenCount ≤
        calculateAvailableContextTokens ∧
      calculateAvailableContextTokens = 12300 := by
  refine ⟨?_, by decide⟩
  unfold getRelevantContext
  split
  · exact Nat.zero_le _
  · dsimp only
    split
    · exact Nat.le_refl _
    · next h => exact Nat.le_of_not_lt h

/-- C2 (counterexample): on the empty store the returned object carries no
`sources` field at all (modelled as `none`), not an empty array. -/
theorem empty_store_sources_missing :
    (getRelevantContext [] "anything".toList 3 600).sources ≠ some [] := by
  decide

/-- C2 (amended): when the document store contains no documents,
`getRelevantContext` returns `{context: '', tokenCount: 0, chunksUsed: 0}`
with no `sources` field (the early return omits the key), for every query,
`topK` and `maxChunkSize`. -/
theorem empty_store_result (query : Str) (topK maxChunkSize : Nat) :
    getRelevantContext [] query topK maxChunkSize = ⟨[], 0, 0, none⟩ := rfl

/-- C10: whenever `estimateTokens text > maxTokens`, `truncateToTokenLimit`
returns the first `floor(maxTokens * 3.5)` characters of `text` followed by
the fixed truncation marker, and the estimated token count of the returned
string still strictly exceeds `maxTokens` — so the failsafe truncation in
`getRelevantContext` clamps only the reported `tokenCount`, not the
estimated size of the context string. -/
theorem truncate_still_over_limit (text : Str) (maxTokens : Nat)
    (h : maxTokens < estimateTokens text) :
    truncateToTokenLimit text maxTokens =
        text.take (7 * maxTokens / 2) ++ truncationMarker ∧
      maxTokens < estimateTokens (truncateToTokenLimit text maxTokens) := by
  have hne : ¬ estimateTokens text ≤ maxTokens := Nat.not_le_of_lt h
  have hmark : truncationMarker.length = 40 := by decide
  have h1 : truncateToTokenLimit text maxTokens =
      text.take (7 * maxTokens / 2) ++ truncationMarker := by
    simp [truncateToTokenLimit, hne]
  refine ⟨h1, ?_⟩
  rw [h1]
  simp only [estimateTokens, List.length_append, List.length_take, hmark]
  simp only [estimateTokens] at h
  omega

/-- C10 witness: a concrete over-long input. -/
theorem truncate_still_over_limit_witness :
    1 < estimateTokens "aaaaaaaa".toList ∧
      (truncateToTokenLimit "aaaaaaaa".toList 1 =
          "aaaaaaaa".toList.take (7 * 1 / 2) ++ truncationMarker ∧
        1 < estimateTokens (truncateToTokenLimit "aaaaaaaa".toList 1)) :=
  ⟨by decide, truncate_still_over_limit "aaaaaaaa".toList 1 (by decide)⟩

/-! ## Scoring lemmas (C5, C8) -/

theorem isPrefixOf_length_le {pat : Str} :
    ∀ {s : Str}, pat.isPrefixOf s = true → pat.length ≤ s.length := by
  induction pat with
  | nil => intro s _; simp
  | cons x xs ih =>
      intro s h
      cases s with
      | nil => simp [List.isPrefixOf] at h
      | cons y ys =>
          simp only [List.isPrefixOf, Bool.and_eq_true] at h
          simp only [List.length_cons]
          exact Nat.succ_le_succ (ih h.2)

theorem isPrefixOf_append {pat : Str} (t : Str) :
    ∀ {s : Str}, pat.isPrefixOf s = true → pat.isPrefixOf (s ++ t) = true := by
  induction pat with
  | nil => intro s _; cases s <;> simp [List.isPrefixOf]
  | cons x xs ih =>
      intro s h
      cases s with
      | nil => simp [List.isPrefixOf] at h
      | cons y ys =>
          simp only [List.isPrefixOf, Bool.and_eq_true] at h
          rw [List.cons_append]
          simp only [List.isPrefixOf, Bool.and_eq_true]
          exact ⟨h.1, ih h.2⟩

theorem isPrefixOf_of_append_le {pat : Str} (b : Str) :
    ∀ {a : Str}, pat.isPrefixOf (a ++ b) = true → pat.length ≤ a.length →
      pat.isPrefixOf a = true := by
  induction pat with
  | nil => intro a _ _; cases a <;> simp [List.isPrefixOf]
  | cons x xs ih =>
      intro a h hle
      cases a with
      | nil => simp at hle
      | cons y ys =>
          rw [List.cons_append] at h
          simp only [List.isPrefixOf, Bool.and_eq_true] at h ⊢
          simp only [List.length_cons] at hle
          exact ⟨h.1, ih h.2 (Nat.le_of_succ_le_succ hle)⟩

theorem countOccsAux_short (pat : Str) :
    ∀ (s : Str) (k : Nat), s.length < pat.length → countOccsAux pat s k = 0 := by
  intro s
  induction s with
  | nil => intro k _; rfl
  | cons x rest ih =>
      intro k h
      have hrest : rest.length < pat.length := by
        simp only [List.length_cons] at h
        omega
      cases k with
      | zero =>
          have hp : pat.isPrefixOf (x :: rest) = false := by
            cases hp : pat.isPrefixOf (x :: rest) with
            | false => rfl
            | true => exact absurd (isPrefixOf_length_le hp) (Nat.not_le_of_lt h)
          simp only [countOccsAux, hp]
          simpa using ih 0 hrest
      | succ k => simpa only [countOccsAux] using ih k hrest

theorem countOccsAux_append_le (pat : Str) :
    ∀ (s b : Str) (k : Nat),
      countOccsAux pat s k ≤ countOccsAux pat (s ++ b) k := by
  intro s
  induction s with
  | nil => intro b k; simp [countOccsAux]
  | cons x rest ih =>
      intro b k
      rw [List.cons_append]
      cases k with
      | succ k => simpa only [countOccsAux] using ih b k
      | zero =>
          cases hp : pat.isPrefixOf (x :: rest) with
          | true =>
              have hp2 : pat.isPrefixOf (x :: (rest ++ b)) = true := by
                have := isPrefixOf_append b hp
                rwa [List.cons_append] at this
              simp only [countOccsAux, hp, hp2, if_true]
              exact Nat.add_le_add_left (ih b _) 1
          | false =>
              cases hp2 : pat.isPrefixOf (x :: (rest ++ b)) with
              | false =>
                  simp only [countOccsAux, hp, hp2]
                  simpa using ih b 0
              | true =>
                  have hlen : rest.length < pat.length := by
                    by_contra hle
                    push_neg at hle
                    have hle' : pat.length ≤ (x :: rest).length := by
                      simp only [List.length_cons]
                      omega
                    have := isPrefixOf_of_append_le b
                      (by rwa [← List.cons_append] at hp2) hle'
                    rw [hp] at this
                    exact Bool.noConfusion this
                  simp only [countOccsAux, hp]
                  simp only [Bool.false_eq_true, if_false]
                  rw [countOccsAux_short pat rest 0 hlen]
                  exact Nat.zero_le _

theorem countOccs_append_le (pat a b : Str) :
    countOccs pat a ≤ countOccs pat (a ++ b) := by
  cases hpe : pat.isEmpty with
  | true => simp [countOccs, hpe]
  | false =>
      simp only [countOccs, hpe, Bool.false_eq_true, if_false]
      exact countOccsAux_append_le pat a b 0

theorem isSubstrOf_append {pat : Str} (b : Str) :
    ∀ {a : Str}, isSubstrOf pat a = true → isSubstrOf pat (a ++ b) = true := by
  intro a
  induction a with
  | nil =>
      intro h
      have hp : pat = [] := by
        cases pat with
        | nil => rfl
        | cons x xs => simp [isSubstrOf, List.isPrefixOf] at h
      subst hp
      cases b with
      | nil => rfl
      | cons y ys => simp [isSubstrOf, List.isPrefixOf]
  | cons x rest ih =>
      intro h
      rw [List.cons_append]
      simp only [isSubstrOf, Bool.or_eq_true] at h ⊢
      rcases h with h | h
      · left
        have := isPrefixOf_append b h
        rwa [List.cons_append] at this
      · exact Or.inr (ih h)

theorem isSubstrOf_of_take {pat l : Str} (n : Nat)
    (h : isSubstrOf pat (l.take n) = true) : isSubstrOf pat l = true := by
  have := isSubstrOf_append (l.drop n) h
  rwa [List.take_append_drop] at this

theorem countOccsAux_pos_of_substr {pat : Str} (hne : pat ≠ []) :
    ∀ s : Str, isSubstrOf pat s = true → 1 ≤ countOccsAux pat s 0 := by
  intro s
  induction s with
  | nil =>
      intro h
      exfalso
      cases pat with
      | nil => exact hne rfl
      | cons x xs => simp [isSubstrOf, List.isPrefixOf] at h
  | cons x rest ih =>
      intro h
      simp only [isSubstrOf, Bool.or_eq_true] at h
      cases hp : pat.isPrefixOf (x :: rest) with
      | true =>
          simp only [countOccsAux, hp, if_true]
          exact Nat.le_add_right 1 _
      | false =>
          rcases h with h | h
          · rw [hp] at h; exact Bool.noConfusion h
          · simp only [countOccsAux, hp, Bool.false_eq_true, if_false]
            exact ih h

theorem foldl_add_eq_sum (f : Str → Nat) :
    ∀ (l : List Str) (init : Nat),
      l.foldl (fun s w => s + f w) init = init + (l.map f).sum := by
  intro l
  induction l with
  | nil => intro init; simp
  | cons x xs ih =>
      intro init
      simp only [List.foldl_cons, List.map_cons, List.sum_cons, ih,
        Nat.add_assoc]

theorem scoreChunkRelevance_eq_sum (chunk query : Str) :
    scoreChunkRelevance chunk query
      = ((queryWords query).map (keywordPoints (toLowerStr chunk))).sum := by
  unfold scoreChunkRelevance
  rw [foldl_add_eq_sum]
  exact Nat.zero_add _

theorem mem_queryWords_ne_nil {w query : Str} (hw : w ∈ queryWords query) :
    w ≠ [] := by
  have h2 := (List.mem_filter.mp hw).2
  rw [Bool.and_eq_true] at h2
  have h3 : 2 < w.length := of_decide_eq_true h2.1
  intro h0
  rw [h0] at h3
  simp at h3

/-- C5: `scoreChunkRelevance` equals the sum, over the query keywords
(lower-cased query split on non-word characters, keeping tokens of length
`> 2` outside the stop-word set), of 10 points per case-insensitive
occurrence in the chunk plus a single 5-point bonus per keyword occurring
in the chunk's first 200 characters; it is `0` when no keyword occurs in
the chunk, and in particular the chunk `"The cat sat on the mat."` scores
`15` for the query `"cat"`. -/
theorem score_is_keyword_sum (chunk query : Str) :
    scoreChunkRelevance chunk query
        = ((queryWords query).map (fun w =>
            countOccs w (toLowerStr chunk) * 10 +
              (if isSubstrOf w ((toLowerStr chunk).take 200) then 5
               else 0))).sum ∧
      ((∀ w ∈ queryWords query, countOccs w (toLowerStr chunk) = 0) →
        scoreChunkRelevance chunk query = 0) ∧
      scoreChunkRelevance "The cat sat on the mat.".toList "cat".toList
        = 15 := by
  refine ⟨scoreChunkRelevance_eq_sum chunk query, ?_, by decide⟩
  intro hz
  rw [scoreChunkRelevance_eq_sum]
  apply List.sum_eq_zero
  intro x hx
  rw [List.mem_map] at hx
  obtain ⟨w, hw, rfl⟩ := hx
  have hwne : w ≠ [] := mem_queryWords_ne_nil hw
  have hz' := hz w hw
  have hpe : w.isEmpty = false := by
    cases w with
    | nil => exact absurd rfl hwne
    | cons y ys => rfl
  have hb : isSubstrOf w ((toLowerStr chunk).take 200) = false := by
    cases hbb : isSubstrOf w ((toLowerStr chunk).take 200) with
    | false => rfl
    | true =>
        exfalso
        have hsub := isSubstrOf_of_take 200 hbb
        have hpos := countOccsAux_pos_of_substr hwne _ hsub
        simp only [countOccs, hpe, Bool.false_eq_true, if_false] at hz'
        omega
  simp [keywordPoints, hz', hb]

/-- C5 witness: a chunk containing no occurrence of any query keyword
scores `0`. -/
theorem score_is_keyword_sum_witness :
    scoreChunkRelevance "zzz".toList "cat".toList = 0 :=
  (score_is_keyword_sum "zzz".toList "cat".toList).2.1 (by decide)

theorem keywordPoints_append_le (w a t : Str) :
    keywordPoints a w ≤ keywordPoints (a ++ t) w := by
  unfold keywordPoints
  have h1 := countOccs_append_le w a t
  have h2 : (if isSubstrOf w (a.take 200) then (5 : Nat) else 0) ≤
      (if isSubstrOf w ((a ++ t).take 200) then (5 : Nat) else 0) := by
    cases hb : isSubstrOf w (a.take 200) with
    | false => simp
    | true =>
        have hb2 : isSubstrOf w ((a ++ t).take 200) = true := by
          rw [List.take_append_eq_append_take]
          exact isSubstrOf_append _ hb
        rw [hb2]
  omega

theorem score_append_le (chunk t query : Str) :
    scoreChunkRelevance chunk query ≤ scoreChunkRelevance (chunk ++ t) query := by
  rw [scoreChunkRelevance_eq_sum, scoreChunkRelevance_eq_sum]
  apply List.sum_le_sum
  intro w _
  have hmap : toLowerStr (chunk ++ t) = toLowerStr chunk ++ toLowerStr t :=
    List.map_append Char.toLower chunk t
  rw [hmap]
  exact keywordPoints_append_le w (toLowerStr chunk) (toLowerStr t)

/-- C8: for a fixed query, appending a further occurrence of one of the
query's keywords to the chunk's text never decreases
`scoreChunkRelevance`. -/
theorem score_monotone_in_keyword_occurrences (chunk query w : Str)
    (hw : w ∈ queryWords query) :
    scoreChunkRelevance chunk query ≤
      scoreChunkRelevance (chunk ++ w) query :=
  score_append_le chunk w query

/-- C8 witness. -/
theorem score_monotone_witness :
    "cat".toList ∈ queryWords "cat".toList ∧
      scoreChunkRelevance "The cat".toList "cat".toList ≤
        scoreChunkRelevance ("The cat".toList ++ "cat".toList)
          "cat".toList :=
  ⟨by decide,
    score_monotone_in_keyword_occurrences "The cat".toList "cat".toList
      "cat".toList (by decide)⟩

/-! ## Selection lemmas (C4, C6, C9) -/

theorem selectLoop_nil (avail i : Nat) (ctx : Str) (tot : Nat) :
    selectLoop avail [] i ctx tot = (ctx, tot, []) := rfl

theorem selectLoop_cons_stop {avail : Nat} {c : ScoredChunk} {i tot : Nat}
    (h : avail < tot + selCost i c) (rest : List ScoredChunk) (ctx : Str) :
    selectLoop avail (c :: rest) i ctx tot = (ctx, tot, []) := by
  simp [selectLoop, h]

theorem selectLoop_cons_go {avail : Nat} {c : ScoredChunk} {i tot : Nat}
    (h : ¬ avail < tot + selCost i c) (rest : List ScoredChunk) (ctx : Str) :
    selectLoop avail (c :: rest) i ctx tot =
      ((selectLoop avail rest (i + 1)
          (ctx ++ chunkHeaderStr i c ++ c.content ++ ['\n'])
          (tot + selCost i c)).1,
        (selectLoop avail rest (i + 1)
          (ctx ++ chunkHeaderStr i c ++ c.content ++ ['\n'])
          (tot + selCost i c)).2.1,
        c :: (selectLoop avail rest (i + 1)
          (ctx ++ chunkHeaderStr i c ++ c.content ++ ['\n'])
          (tot + selCost i c)).2.2) := by
  simp [selectLoop, h]

/-- The selection loop selects exactly a prefix of its candidate list: the
greedy scan stops at the first over-budget candidate and never looks
further. -/
theorem selectLoop_spec (avail : Nat) :
    ∀ (L : List ScoredChunk) (i : Nat) (ctx : Str) (tot : Nat),
      ∃ k, k ≤ L.length ∧
        (selectLoop avail L i ctx tot).2.2 = L.take k ∧
        (selectLoop avail L i ctx tot).2.1 = tot + totalCost i (L.take k) ∧
        ∀ hk : k < L.length,
          avail < tot + totalCost i (L.take k) +
            selCost (i + k) (L.get ⟨k, hk⟩) := by
  intro L
  induction L with
  | nil =>
      intro i ctx tot
      exact ⟨0, Nat.le_refl 0, rfl, by simp [totalCost, selectLoop],
        fun hk => absurd hk (by simp)⟩
  | cons c rest ih =>
      intro i ctx tot
      by_cases h : avail < tot + selCost i c
      · refine ⟨0, Nat.zero_le _, ?_, ?_, ?_⟩
        · rw [selectLoop_cons_stop h]
          rfl
        · rw [selectLoop_cons_stop h]
          show tot = tot + totalCost i (List.take 0 (c :: rest))
          simp [totalCost]
        · intro hk
          simpa [totalCost] using h
      · obtain ⟨k, hk1, hk2, hk3, hk4⟩ := ih (i + 1)
          (ctx ++ chunkHeaderStr i c ++ c.content ++ ['\n'])
          (tot + selCost i c)
        refine ⟨k + 1, by simpa using Nat.succ_le_succ hk1, ?_, ?_, ?_⟩
        · rw [selectLoop_cons_go h, List.take_succ_cons]
          show c :: _ = c :: _
          rw [hk2]
        · rw [selectLoop_cons_go h, List.take_succ_cons]
          show (selectLoop avail rest (i + 1) _ _).2.1 = _
          rw [hk3, totalCost]
          omega
        · intro hkk
          rw [List.take_succ_cons, totalCost]
          have hkk' : k < rest.length := by
            simp only [List.length_cons] at hkk
            omega
          have h4 := hk4 hkk'
          have hget : (c :: rest).get ⟨k + 1, hkk⟩ = rest.get ⟨k, hkk'⟩ := rfl
          rw [hget]
          have harith : i + (k + 1) = (i + 1) + k := by omega
          rw [harith]
          omega

theorem mem_insertDesc {x c : ScoredChunk} :
    ∀ {l : List ScoredChunk}, x ∈ insertDesc c l ↔ x = c ∨ x ∈ l := by
  intro l
  induction l with
  | nil => simp [insertDesc]
  | cons d rest ih =>
      by_cases h : c.score < d.score
      · simp only [insertDesc, if_pos h, List.mem_cons, ih]
        tauto
      · simp only [insertDesc, if_neg h, List.mem_cons]

theorem mem_sortByScoreDesc {x : ScoredChunk} :
    ∀ {l : List ScoredChunk}, x ∈ sortByScoreDesc l ↔ x ∈ l := by
  intro l
  induction l with
  | nil => simp [sortByScoreDesc]
  | cons c rest ih =>
      simp only [sortByScoreDesc, mem_insertDesc, ih, List.mem_cons]

theorem sorted_insertDesc (c : ScoredChunk) :
    ∀ {l : List ScoredChunk},
      l.Pairwise (fun a b => b.score ≤ a.score) →
        (insertDesc c l).Pairwise (fun a b => b.score ≤ a.score) := by
  intro l
  induction l with
  | nil => intro _; simp [insertDesc]
  | cons d rest ih =>
      intro h
      have h' := List.pairwise_cons.mp h
      by_cases hcd : c.score < d.score
      · simp only [insertDesc, if_pos hcd]
        rw [List.pairwise_cons]
        refine ⟨?_, ih h'.2⟩
        intro x hx
        rcases mem_insertDesc.mp hx with rfl | hx
        · exact Nat.le_of_lt hcd
        · exact h'.1 x hx
      · simp only [insertDesc, if_neg hcd]
        rw [List.pairwise_cons]
        refine ⟨?_, h⟩
        intro x hx
        rcases List.mem_cons.mp hx with rfl | hx
        · exact Nat.le_of_not_lt hcd
        · exact Nat.le_trans (h'.1 x hx) (Nat.le_of_not_lt hcd)

theorem sorted_sortByScoreDesc (l : List ScoredChunk) :
    (sortByScoreDesc l).Pairwise (fun a b => b.score ≤ a.score) := by
  induction l with
  | nil => simp [sortByScoreDesc]
  | cons c rest ih => exact sorted_insertDesc c ih

theorem scoreChunksAux_cons_pos {query : Str} {ch : Chunk}
    (hs : 0 < scoreChunkRelevance ch.content query) (filename : Str)
    (total : Nat) (rest : List Chunk) (idx : Nat) :
    scoreChunksAux query filename total (ch :: rest) idx =
      ⟨ch.content, scoreChunkRelevance ch.content query, filename,
        estimateTokens ch.content, ch.startChar, ch.endChar, idx + 1, total,
        ch.preview⟩ :: scoreChunksAux query filename total rest (idx + 1) := by
  simp [scoreChunksAux, hs]

theorem scoreChunksAux_cons_neg {query : Str} {ch : Chunk}
    (hs : ¬ 0 < scoreChunkRelevance ch.content query) (filename : Str)
    (total : Nat) (rest : List Chunk) (idx : Nat) :
    scoreChunksAux query filename total (ch :: rest) idx =
      scoreChunksAux query filename total rest (idx + 1) := by
  simp [scoreChunksAux, hs]

theorem mem_scoreChunksAux {query filename : Str} {total : Nat} :
    ∀ (chunks : List Chunk) (idx : Nat) (c : ScoredChunk),
      c ∈ scoreChunksAux query filename total chunks idx →
        c.score = scoreChunkRelevance c.content query ∧ 0 < c.score := by
  intro chunks
  induction chunks with
  | nil => intro idx c hc; simp [scoreChunksAux] at hc
  | cons ch rest ih =>
      intro idx c hc
      by_cases hs : 0 < scoreChunkRelevance ch.content query
      · rw [scoreChunksAux_cons_pos hs] at hc
        rcases List.mem_cons.mp hc with rfl | hc
        · exact ⟨rfl, hs⟩
        · exact ih _ c hc
      · rw [scoreChunksAux_cons_neg hs] at hc
        exact ih _ c hc

theorem collectChunks_cons (f : Str × Str) (rest : List (Str × Str))
    (query : Str) (m : Nat) :
    collectChunks (f :: rest) query m =
      scoreFileChunks query m f ++ collectChunks rest query m := rfl

theorem mem_collectChunks {query : Str} {m : Nat} {c : ScoredChunk} :
    ∀ {store : List (Str × Str)}, c ∈ collectChunks store query m →
      c.score = scoreChunkRelevance c.content query ∧ 0 < c.score := by
  intro store
  induction store with
  | nil => intro hc; simp [collectChunks] at hc
  | cons f rest ih =>
      intro hc
      rw [collectChunks_cons] at hc
      rcases List.mem_append.mp hc with hc | hc
      · exact mem_scoreChunksAux _ _ c hc
      · exact ih hc

theorem scoreChunksAux_eq_nil {query : Str} (filename : Str) (total : Nat) :
    ∀ (chunks : List Chunk) (idx : Nat),
      (∀ ch ∈ chunks, scoreChunkRelevance ch.content query = 0) →
      scoreChunksAux query filename total chunks idx = [] := by
  intro chunks
  induction chunks with
  | nil => intro idx _; rfl
  | cons ch rest ih =>
      intro idx hz
      have hs : ¬ 0 < scoreChunkRelevance ch.content query := by
        rw [hz ch (List.mem_cons_self ch rest)]
        omega
      rw [scoreChunksAux_cons_neg hs]
      exact ih _ (fun q hq => hz q (List.mem_cons_of_mem ch hq))

theorem collectChunks_eq_nil {query : Str} {m : Nat} :
    ∀ {store : List (Str × Str)},
      (∀ f ∈ store, ∀ ch ∈ chunkText f.2 m,
        scoreChunkRelevance ch.content query = 0) →
      collectChunks store query m = [] := by
  intro store
  induction store with
  | nil => intro _; rfl
  | cons f rest ih =>
      intro hz
      rw [collectChunks_cons]
      rw [ih (fun g hg => hz g (List.mem_cons_of_mem f hg))]
      rw [List.append_nil]
      exact scoreChunksAux_eq_nil f.1 _ _ 0
        (hz f (List.mem_cons_self f rest))

theorem getRelevantContext_eq (store : List (Str × Str)) (query : Str)
    (topK m : Nat) (hne : store ≠ []) :
    getRelevantContext store query topK m =
      if calculateAvailableContextTokens <
          (selectLoop calculateAvailableContextTokens
            ((sortedPool store query m).take topK) 0 contextHeader
            (estimateTokens contextHeader)).2.1 then
        ⟨truncateToTokenLimit
            (selectLoop calculateAvailableContextTokens
              ((sortedPool store query m).take topK) 0 contextHeader
              (estimateTokens contextHeader)).1
            calculateAvailableContextTokens,
          calculateAvailableContextTokens,
          (selectedChunks store query topK m).length,
          some ((selectedChunks store query topK m).map toSourceRef)⟩
      else
        ⟨(selectLoop calculateAvailableContextTokens
            ((sortedPool store query m).take topK) 0 contextHeader
            (estimateTokens contextHeader)).1,
          (selectLoop calculateAvailableContextTokens
            ((sortedPool store query m).take topK) 0 contextHeader
            (estimateTokens contextHeader)).2.1,
          (selectedChunks store query topK m).length,
          some ((selectedChunks store query topK m).map toSourceRef)⟩ := by
  have hlen : ¬ store.length = 0 := fun h0 => hne (List.length_eq_zero.mp h0)
  simp only [getRelevantContext, if_neg hlen, selectedChunks]

theorem getRelevantContext_chunksUsed (store : List (Str × Str))
    (query : Str) (topK m : Nat) (hne : store ≠ []) :
    (getRelevantContext store query topK m).chunksUsed =
      (selectedChunks store query topK m).length := by
  rw [getRelevantContext_eq store query topK m hne]
  split <;> rfl

theorem getRelevantContext_sources (store : List (Str × Str)) (query : Str)
    (topK m : Nat) (hne : store ≠ []) :
    (getRelevantContext store query topK m).sources =
      some ((selectedChunks store query topK m).map toSourceRef) := by
  rw [getRelevantContext_eq store query topK m hne]
  split <;> rfl

/-- C4 (counterexample): with a non-empty store whose every chunk scores
`0` against the query `"what is this"`, the result is NOT the empty
`ContextResult`: the context is the fixed header string (not `''`) and
`tokenCount` is the header's 16 estimated tokens (not `0`); only
`chunksUsed = 0` and `sources = []` hold. -/
theorem no_relevant_chunks_cex :
    (getRelevantContext
        [("doc.txt".toList, "The cat sat on the mat.".toList)]
        "what is this".toList 3 600)
        = ⟨contextHeader, 16, 0, some []⟩ ∧
      contextHeader ≠ [] ∧ (16 : Nat) ≠ 0 := by
  refine ⟨by decide, by decide, by decide⟩

/-- C4 (amended): when the store is non-empty but every chunk of every
document scores `0` against the query, `getRelevantContext` returns
`chunksUsed = 0` and an empty `sources` array, with `context` equal to the
fixed header string alone and `tokenCount` equal to the header's estimated
token count (16), for every `topK` and `maxChunkSize`. -/
theorem no_relevant_chunks_result (store : List (Str × Str)) (query : Str)
    (topK m : Nat) (hne : store ≠ [])
    (hz : ∀ f ∈ store, ∀ ch ∈ chunkText f.2 m,
      scoreChunkRelevance ch.content query = 0) :
    getRelevantContext store query topK m =
      ⟨contextHeader, estimateTokens contextHeader, 0, some []⟩ := by
  have hcol : collectChunks store query m = [] := collectChunks_eq_nil hz
  rw [getRelevantContext_eq store query topK m hne]
  have hpool : sortedPool store query m = [] := by
    rw [sortedPool, hcol]
    rfl
  rw [if_neg ?_]
  · show (⟨(selectLoop _ _ _ _ _).1, (selectLoop _ _ _ _ _).2.1, _, _⟩ :
        ContextResult) = _
    rw [selectedChunks, hpool, List.take_nil, selectLoop_nil]
    rfl
  · rw [hpool, List.take_nil, selectLoop_nil]
    show ¬ calculateAvailableContextTokens < estimateTokens contextHeader
    decide

/-- C4 witness: the concrete stop-word scenario. -/
theorem no_relevant_chunks_witness :
    getRelevantContext
        [("doc.txt".toList, "The cat sat on the mat.".toList)]
        "what is this".toList 3 600
      = ⟨contextHeader, estimateTokens contextHeader, 0, some []⟩ :=
  no_relevant_chunks_result
    [("doc.txt".toList, "The cat sat on the mat.".toList)]
    "what is this".toList 3 600 (by decide) (by decide)

/-- C6: `getRelevantContext` scans the candidate pool sorted descending by
score, keeps at most `topK` candidates, and the selected chunks (as
reported by `sources`) are exactly a prefix of that pool: the scan stops
at the first candidate whose addition would push the running token total
over the budget (when the prefix ends before `topK`/pool exhaustion, the
next candidate's cost overflows), so no candidate ranked after the first
over-budget one is ever selected. -/
theorem greedy_prefix_selection (store : List (Str × Str)) (query : Str)
    (topK maxChunkSize : Nat) (hne : store ≠ []) :
    (sortedPool store query maxChunkSize).Pairwise
        (fun a b => b.score ≤ a.score) ∧
      ∃ k, k ≤ topK ∧
        (getRelevantContext store query topK maxChunkSize).chunksUsed = k ∧
        (getRelevantContext store query topK maxChunkSize).sources
          = some ((((sortedPool store query maxChunkSize).take topK).take
              k).map toSourceRef) ∧
        ∀ hk : k < ((sortedPool store query maxChunkSize).take topK).length,
          calculateAvailableContextTokens
            < estimateTokens contextHeader
              + totalCost 0
                  (((sortedPool store query maxChunkSize).take topK).take k)
              + selCost k
                  (((sortedPool store query maxChunkSize).take topK).get
                    ⟨k, hk⟩) := by
  refine ⟨sorted_sortByScoreDesc _, ?_⟩
  obtain ⟨k, hk1, hk2, hk3, hk4⟩ := selectLoop_spec
    calculateAvailableContextTokens
    ((sortedPool store query maxChunkSize).take topK) 0 contextHeader
    (estimateTokens contextHeader)
  have hsel : selectedChunks store query topK maxChunkSize =
      ((sortedPool store query maxChunkSize).take topK).take k := hk2
  refine ⟨k, ?_, ?_, ?_, ?_⟩
  · rw [List.length_take] at hk1
    omega
  · rw [getRelevantContext_chunksUsed store query topK maxChunkSize hne,
      hsel, List.length_take]
    omega
  · rw [getRelevantContext_sources store query topK maxChunkSize hne, hsel]
  · intro hk
    have h4 := hk4 hk
    rw [Nat.zero_add] at h4
    exact h4

/-- C6 witness: the cat/mat store with query `"cat"`. -/
theorem greedy_prefix_selection_witness :
    (sortedPool [("doc.txt".toList, "The cat sat on the mat.".toList)]
        "cat".toList 600).Pairwise (fun a b => b.score ≤ a.score) ∧
      ∃ k, k ≤ 3 ∧
        (getRelevantContext
            [("doc.txt".toList, "The cat sat on the mat.".toList)]
            "cat".toList 3 600).chunksUsed = k ∧
        (getRelevantContext
            [("doc.txt".toList, "The cat sat on the mat.".toList)]
            "cat".toList 3 600).sources
          = some ((((sortedPool
              [("doc.txt".toList, "The cat sat on the mat.".toList)]
              "cat".toList 600).take 3).take k).map toSourceRef) ∧
        ∀ hk : k < ((sortedPool
            [("doc.txt".toList, "The cat sat on the mat.".toList)]
            "cat".toList 600).take 3).length,
          calculateAvailableContextTokens
            < estimateTokens contextHeader
              + totalCost 0 (((sortedPool
                  [("doc.txt".toList, "The cat sat on the mat.".toList)]
                  "cat".toList 600).take 3).take k)
              + selCost k (((sortedPool
                  [("doc.txt".toList, "The cat sat on the mat.".toList)]
                  "cat".toList 600).take 3).get ⟨k, hk⟩) :=
  greedy_prefix_selection
    [("doc.txt".toList, "The cat sat on the mat.".toList)]
    "cat".toList 3 600 (by decide)

/-- C9: a chunk with relevance score `0` against the query is never
selected: every chunk that `getRelevantContext` selects has a strictly
positive score, and the returned `sources` array consists exactly of the
selected chunks, whatever the remaining token budget. -/
theorem zero_score_never_selected (store : List (Str × Str)) (query : Str)
    (topK m : Nat) (c : ScoredChunk)
    (hc : c ∈ selectedChunks store query topK m) :
    0 < scoreChunkRelevance c.content query ∧
      (store ≠ [] → (getRelevantContext store query topK m).sources
        = some ((selectedChunks store query topK m).map toSourceRef)) := by
  constructor
  · obtain ⟨k, _, hk2, _, _⟩ := selectLoop_spec calculateAvailableContextTokens
      ((sortedPool store query m).take topK) 0 contextHeader
      (estimateTokens contextHeader)
    rw [selectedChunks, hk2] at hc
    have h1 : c ∈ (sortedPool store query m).take topK :=
      List.take_subset k _ hc
    have h2 : c ∈ sortedPool store query m := List.take_subset topK _ h1
    have h3 : c ∈ collectChunks store query m := mem_sortByScoreDesc.mp h2
    obtain ⟨heq, hpos⟩ := mem_collectChunks h3
    rwa [heq] at hpos
  · intro hne
    exact getRelevantContext_sources store query topK m hne

/-- C9 witness: the selected cat/mat chunk has positive score, and the
sources are the selected chunks. -/
theorem zero_score_never_selected_witness :
    0 < scoreChunkRelevance "The cat sat on the mat.".toList "cat".toList ∧
      ([("doc.txt".toList, "The cat sat on the mat.".toList)] ≠
          ([] : List (Str × Str)) →
        (getRelevantContext
            [("doc.txt".toList, "The cat sat on the mat.".toList)]
            "cat".toList 3 600).sources
          = some ((selectedChunks
              [("doc.txt".toList, "The cat sat on the mat.".toList)]
              "cat".toList 3 600).map toSourceRef)) :=
  zero_score_never_selected
    [("doc.txt".toList, "The cat sat on the mat.".toList)]
    "cat".toList 3 600
    ⟨"The cat sat on the mat.".toList, 15, "doc.txt".toList, 7, 0, 25, 1, 1,
      "The cat sat on the mat....".toList⟩
    (by decide)

example : splitParas "a\n\nb".toList = ["a".toList, "b".toList] := by decide
example : splitParas "a\nb".toList = ["a\nb".toList] := by decide
example : splitParas "\n\na\n\n\nb\n\n".toList
    = ["".toList, "a".toList, "b".toList, "".toList] := by decide
example : (chunkText "one\n\ntwo".toList 600).map Chunk.content
    = ["one\n\ntwo".toList] := by decide
example : queryWords "what is this".toList = ["this".toList] := by decide
example : queryWords "Tell me about CATS and dogs".toList
    = ["cats".toList, "dogs".toList] := by decide
example : scoreChunkRelevance "The cat sat on the mat.".toList "cat".toList
    = 15 := by decide
example :
    (getRelevantContext [("doc.txt".toList, "The cat sat on the mat.".toList)]
      "cat".toList 3 600).chunksUsed = 1 := by decide
